import Mathlib

/-!
# OpenVirtualKeyboard: the layout catalog of `KeyboardLayoutsProvider`

A shallow embedding of `src/OpenVirtualKeyboard/keyboardlayoutsprovider.cpp`.

* `QString` is the sequence of UTF-16 code units of the string; string constants of the
  source are written as their code units, with the text in a comment.
* `QMap<QString, LayoutData>` is the list of its entries in ascending key order, the
  order in which `QMap::keys()` enumerates them.  The functions assume but do not require
  that the list is well formed (`QMap.WF`); separate lemmas show that they keep it so.
* A member function becomes a function from the provider state to the new state and the
  list of signals it emitted, in order.  A container access that the source does not
  guard (`QList::operator[]`, `QList::at`) returns `none` when it is out of range.
* The resource file system, the JSON parser and the environment variable are inputs.
-/

namespace OVK

/-! ## Strings -/

/-- A `QString`: its UTF-16 code units. -/
abbrev QString := List Nat

/-- The ordering `operator<` of `QString`: lexicographic on the code units. -/
def qstrLt : QString → QString → Bool
  | [], [] => false
  | [], _ :: _ => true
  | _ :: _, [] => false
  | a :: as, b :: bs => if a < b then true else if b < a then false else qstrLt as bs

/-- The scan of `QString::split( sep )` with the default `Qt::KeepEmptyParts`, for a
non-empty separator: `skip` counts the code units of a separator that was just matched
and is being stepped over, `acc` holds the current part in reverse. -/
def splitGo (sep : QString) : Nat → QString → QString → List QString
  | _, acc, [] => [acc.reverse]
  | skip + 1, acc, _ :: cs => splitGo sep skip acc cs
  | 0, acc, c :: cs =>
    if sep.isPrefixOf (c :: cs) then acc.reverse :: splitGo sep (sep.length - 1) [] cs
    else splitGo sep 0 (c :: acc) cs

/-- The call `s.split( sep )` for a non-empty separator: the parts of `s` between the
occurrences of `sep`, found left to right without overlap; `[s]` when there is none. -/
def split (sep s : QString) : List QString := splitGo sep 0 [] s

/-- The call `QStringList::indexOf`: position of the first element equal to `x`, or -1. -/
def indexOf : List QString → QString → Int
  | [], _ => -1
  | y :: ys, x => if y = x then 0 else
    let r := indexOf ys x
    if r < 0 then -1 else r + 1

/-- The text `lang=`. -/
def LANG_MARKER : QString := [108, 97, 110, 103, 61]
/-- The text `_FR`. -/
def FR_SUFFIX : QString := [95, 70, 82]
/-- The text `en_US`. -/
def EN_US : QString := [101, 110, 95, 85, 83]
/-- The text `alphabet.json`. -/
def ALPHABET_FILENAME : QString := [97, 108, 112, 104, 97, 98, 101, 116, 46, 106, 115, 111, 110]
/-- The text `symbols.json`. -/
def SYMBOLS_FILENAME : QString := [115, 121, 109, 98, 111, 108, 115, 46, 106, 115, 111, 110]
/-- The text `digits.json`. -/
def DIGITS_FILENAME : QString := [100, 105, 103, 105, 116, 115, 46, 106, 115, 111, 110]
/-- The text `numbers.json`. -/
def NUMBERS_FILENAME : QString := [110, 117, 109, 98, 101, 114, 115, 46, 106, 115, 111, 110]
/-- The text `dial.json`. -/
def DIAL_FILENAME : QString := [100, 105, 97, 108, 46, 106, 115, 111, 110]
/-- The text `:/ovk/qml/layouts/`. -/
def LAYOUTS_BASE : QString :=
  [58, 47, 111, 118, 107, 47, 113, 109, 108, 47, 108, 97, 121, 111, 117, 116, 115, 47]
/-- The text `:/ovk/qml/layouts/en_US/`. -/
def EN_US_BASE : QString :=
  [58, 47, 111, 118, 107, 47, 113, 109, 108, 47, 108, 97, 121, 111, 117, 116, 115, 47,
   101, 110, 95, 85, 83, 47]
/-- The text `/`. -/
def SLASH : QString := [47]

/-! ## Layout data and the catalog -/

/-- A page: an ordered sequence of key records, each kept as an uninterpreted code. -/
abbrev Page := List Nat

/-- A `QJsonArray` of pages. The default-constructed array is empty. -/
abbrev QJsonArray := List Page

/-- The five page arrays of one locale. -/
structure LayoutData where
  alphabet : QJsonArray
  symbols : QJsonArray
  dial : QJsonArray
  numbers : QJsonArray
  digits : QJsonArray
deriving DecidableEq, Repr

/-- A default-constructed `LayoutData`: five empty arrays. -/
def LayoutData.empty : LayoutData := ⟨[], [], [], [], []⟩

/-- Modelled from the spec: the type of `_layoutData`, declared in the absent header
`keyboardlayoutsprovider.h`. The spec calls it an associative container enumerated in
its key order, which is `QMap<QString, LayoutData>`: the entries in ascending key order. -/
abbrev QMap := List (QString × LayoutData)

namespace QMap

/-- The call `keys()`: the keys in ascending order. -/
def keys (m : QMap) : List QString := m.map Prod.fst

/-- The call `size()`. -/
def size (m : QMap) : Int := m.length

/-- The call `contains( key )`. -/
def contains (m : QMap) (key : QString) : Bool := decide (key ∈ m.keys)

/-- The entry stored under `key`, if any. -/
def value? : QMap → QString → Option LayoutData
  | [], _ => none
  | (k, v) :: rest, key => if k = key then some v else value? rest key

/-- The state of the map after the non-const `operator[]( key )`: a default-constructed
value is inserted at the key's place in the order when the key is absent. -/
def ensure : QMap → QString → QMap
  | [], key => [(key, LayoutData.empty)]
  | (k, v) :: rest, key =>
    if qstrLt k key then (k, v) :: ensure rest key
    else if qstrLt key k then (key, LayoutData.empty) :: (k, v) :: rest
    else (k, v) :: rest

/-- An assignment through the reference returned by `operator[]( key )`. -/
def modify : QMap → QString → (LayoutData → LayoutData) → QMap
  | [], _, _ => []
  | (k, v) :: rest, key, f =>
    if k = key then (k, f v) :: rest else (k, v) :: modify rest key f

/-- The value that the reference returned by `operator[]( key )` designates. -/
def subscript (m : QMap) (key : QString) : LayoutData :=
  ((m.ensure key).value? key).getD LayoutData.empty

/-- The invariant of a `QMap`: keys strictly ascending, hence without duplicates. -/
def WF (m : QMap) : Prop := m.keys.Pairwise (fun a b => qstrLt a b = true)

instance (m : QMap) : Decidable m.WF :=
  inferInstanceAs (Decidable (m.keys.Pairwise (fun a b => qstrLt a b = true)))

end QMap

/-! ## The page views -/

/-- Modelled from the spec: `KeyboardLayoutModel` (`keyboardlayoutmodel.cpp` is absent),
the spec's PagedLayoutView: the pages of one category and a current-page cursor. -/
structure KeyboardLayoutModel where
  pages : QJsonArray
  currentPage : Int
deriving DecidableEq, Repr

/-- Modelled from the spec: what the spec leaves to the implementer of
`KeyboardLayoutModel`, the cursor after `setPages` (reset or not) and the cursor after
`setCurrentPage( n )` (clamp, wrap or reject). -/
structure PagePolicy where
  cursorAfterSetPages : KeyboardLayoutModel → QJsonArray → Int
  cursorAfterSetCurrentPage : KeyboardLayoutModel → Int → Int

/-- Modelled from the spec: `KeyboardLayoutModel::setPages` (absent), which "replaces the
held CategoryPages wholesale". -/
def KeyboardLayoutModel.setPages (P : PagePolicy) (v : KeyboardLayoutModel)
    (pages : QJsonArray) : KeyboardLayoutModel :=
  { pages := pages, currentPage := P.cursorAfterSetPages v pages }

/-- Modelled from the spec: `KeyboardLayoutModel::setCurrentPage` (absent), which "sets
the cursor" and leaves the pages alone. -/
def KeyboardLayoutModel.setCurrentPage (P : PagePolicy) (v : KeyboardLayoutModel)
    (n : Int) : KeyboardLayoutModel :=
  { v with currentPage := P.cursorAfterSetCurrentPage v n }

/-- The enumeration `KeyboardLayoutType::Type`, as the `switch` of
`incrementPageForLayoutType` lists it. -/
inductive KeyboardLayoutType where
  | Alphabet
  | Symbols
  | Dial
  | Numbers
  | Digits
deriving DecidableEq, Repr

/-! ## The provider -/

/-- The signals of `KeyboardLayoutsProvider`. -/
inductive Signal where
  | layoutsCountChanged
  | selectedLayoutIndexChanged
  | selectedLayoutChanged
deriving DecidableEq, Repr

/-- The data members of `KeyboardLayoutsProvider`. -/
structure KeyboardLayoutsProvider where
  layoutData : QMap
  selectedLayoutIndex : Int
  alphabetModel : KeyboardLayoutModel
  symbolsModel : KeyboardLayoutModel
  dialModel : KeyboardLayoutModel
  numbersModel : KeyboardLayoutModel
  digitsModel : KeyboardLayoutModel
deriving DecidableEq, Repr

/-- The resource file system and the JSON parser, as the provider uses them. -/
structure Resources where
  /-- Result of `QDir( ":/ovk/qml/layouts/" ).exists()` -/
  baseExists : Bool
  /-- Result of `baseDir.entryList( QDir::Dirs | QDir::NoDot | QDir::NoDotDot )` -/
  localeDirs : List QString
  /-- Result of `QFile::open( ReadOnly | Text )` then `readAll()`: `none` when the file cannot be opened -/
  readFile : QString → Option (List Nat)
  /-- Result of `QJsonDocument::fromJson( bytes ).array()` -/
  parseArray : List Nat → QJsonArray

namespace KeyboardLayoutsProvider

/-- Member `KeyboardLayoutsProvider::layoutsList` -/
def layoutsList (s : KeyboardLayoutsProvider) : List QString := s.layoutData.keys

/-- Member `KeyboardLayoutsProvider::layoutsCount` -/
def layoutsCount (s : KeyboardLayoutsProvider) : Int := s.layoutData.size

/-- Member `KeyboardLayoutsProvider::incrementPageForLayoutType` -/
def incrementPageForLayoutType (P : PagePolicy) (s : KeyboardLayoutsProvider) :
    KeyboardLayoutType → KeyboardLayoutsProvider
  | .Alphabet =>
    { s with alphabetModel := s.alphabetModel.setCurrentPage P (s.alphabetModel.currentPage + 1) }
  | .Symbols =>
    { s with symbolsModel := s.symbolsModel.setCurrentPage P (s.symbolsModel.currentPage + 1) }
  | .Dial =>
    { s with dialModel := s.dialModel.setCurrentPage P (s.dialModel.currentPage + 1) }
  | .Numbers =>
    { s with numbersModel := s.numbersModel.setCurrentPage P (s.numbersModel.currentPage + 1) }
  | .Digits =>
    { s with digitsModel := s.digitsModel.setCurrentPage P (s.digitsModel.currentPage + 1) }

/-- Member `KeyboardLayoutsProvider::setSelectedLayoutIndex`: the new state and the signals
emitted; `none` if `layouts.at( index )` were out of range. -/
def setSelectedLayoutIndex (P : PagePolicy) (s : KeyboardLayoutsProvider) (index : Int) :
    Option (KeyboardLayoutsProvider × List Signal) :=
  if s.selectedLayoutIndex = index then some (s, [])
  else
    let layouts := s.layoutsList
    if index ≥ (layouts.length : Int) ∨ index < 0 then some (s, [])
    else
      match layouts.get? index.toNat with
      | none => none
      | some key =>
        let layout := s.layoutData.subscript key
        some ({ layoutData := s.layoutData.ensure key
                alphabetModel := s.alphabetModel.setPages P layout.alphabet
                symbolsModel := s.symbolsModel.setPages P layout.symbols
                dialModel := s.dialModel.setPages P layout.dial
                numbersModel := s.numbersModel.setPages P layout.numbers
                digitsModel := s.digitsModel.setPages P layout.digits
                selectedLayoutIndex := index },
              [Signal.selectedLayoutIndexChanged, Signal.selectedLayoutChanged])

/-- Member `KeyboardLayoutsProvider::selectedLayout`: `none` if the index is out of range. -/
def selectedLayout (s : KeyboardLayoutsProvider) : Option QString :=
  if 0 ≤ s.selectedLayoutIndex then s.layoutsList.get? s.selectedLayoutIndex.toNat else none

/-- Member `KeyboardLayoutsProvider::loadLayoutData` -/
def loadLayoutData (R : Resources) (layoutFilename : QString) : QJsonArray :=
  match R.readFile layoutFilename with
  | none => []
  | some bytes => R.parseArray bytes

/-- The five assignments through `data`, the reference to the entry of `key`, with the
files read from the directory `dir`. -/
def loadInto (R : Resources) (m : QMap) (key dir : QString) : QMap :=
  let m0 := m.ensure key
  let m1 := m0.modify key (fun d => { d with alphabet := loadLayoutData R (dir ++ ALPHABET_FILENAME) })
  let m2 := m1.modify key (fun d => { d with symbols := loadLayoutData R (dir ++ SYMBOLS_FILENAME) })
  let m3 := m2.modify key (fun d => { d with dial := loadLayoutData R (dir ++ DIAL_FILENAME) })
  let m4 := m3.modify key (fun d => { d with numbers := loadLayoutData R (dir ++ NUMBERS_FILENAME) })
  m4.modify key (fun d => { d with digits := loadLayoutData R (dir ++ DIGITS_FILENAME) })

/-- Member `KeyboardLayoutsProvider::loadDefaultLayout` -/
def loadDefaultLayout (R : Resources) (s : KeyboardLayoutsProvider) : KeyboardLayoutsProvider :=
  { s with layoutData := loadInto R s.layoutData EN_US EN_US_BASE }

/-- The loop of `loadEmbeddedLayouts` over the locale directories. -/
def loadLocales (R : Resources) : QMap → List QString → QMap
  | m, [] => m
  | m, locale :: rest =>
    loadLocales R (loadInto R m locale (LAYOUTS_BASE ++ locale ++ SLASH)) rest

/-- Member `KeyboardLayoutsProvider::loadEmbeddedLayouts` -/
def loadEmbeddedLayouts (R : Resources) (s : KeyboardLayoutsProvider) : KeyboardLayoutsProvider :=
  if !R.baseExists then s
  else if R.localeDirs.isEmpty then s
  else { s with layoutData := loadLocales R s.layoutData R.localeDirs }

/-- Lines 162 to 171 of `applySystemLocaleLayout`: the value of `lang` when the layouts
are listed; `none` if `im.split( "lang=" )[1]` is out of range. -/
def resolveLang (m : QMap) (im : QString) : Option QString :=
  match (split LANG_MARKER im).get? 1 with
  | none => none
  | some lang =>
    if !m.contains lang then
      if m.contains (lang ++ FR_SUFFIX) then some (lang ++ FR_SUFFIX)
      else some EN_US
    else some lang

/-- Member `KeyboardLayoutsProvider::applySystemLocaleLayout`, with `im` the value of the
environment variable `QT_IM_MODULE`. -/
def applySystemLocaleLayout (P : PagePolicy) (s : KeyboardLayoutsProvider) (im : QString) :
    Option (KeyboardLayoutsProvider × List Signal) :=
  match resolveLang s.layoutData im with
  | none => none
  | some lang =>
    let layouts := s.layoutsList
    setSelectedLayoutIndex P s (indexOf layouts lang)

/-- Modelled from the spec: the members as the absent header initialises them, an empty
catalog, the "no selection" index -1 and five empty views. -/
def initial : KeyboardLayoutsProvider :=
  { layoutData := []
    selectedLayoutIndex := -1
    alphabetModel := ⟨[], 0⟩
    symbolsModel := ⟨[], 0⟩
    dialModel := ⟨[], 0⟩
    numbersModel := ⟨[], 0⟩
    digitsModel := ⟨[], 0⟩ }

/-- The constructor `KeyboardLayoutsProvider::KeyboardLayoutsProvider`. -/
def construct (R : Resources) (P : PagePolicy) (im : QString) :
    Option (KeyboardLayoutsProvider × List Signal) :=
  match applySystemLocaleLayout P (loadEmbeddedLayouts R initial) im with
  | none => none
  | some (s, sigs) => some (s, sigs ++ [Signal.layoutsCountChanged])

/-- A call a client can make on a constructed provider. -/
inductive Call where
  | setSelectedLayoutIndex (index : Int)
  | incrementPageForLayoutType (layoutType : KeyboardLayoutType)
deriving DecidableEq, Repr

/-- The state after one call. -/
def runCall (P : PagePolicy) (s : KeyboardLayoutsProvider) : Call → Option KeyboardLayoutsProvider
  | .setSelectedLayoutIndex index => (setSelectedLayoutIndex P s index).map Prod.fst
  | .incrementPageForLayoutType layoutType => some (incrementPageForLayoutType P s layoutType)

/-- The state after a sequence of calls. -/
def runCalls (P : PagePolicy) : KeyboardLayoutsProvider → List Call → Option KeyboardLayoutsProvider
  | s, [] => some s
  | s, c :: cs =>
    match runCall P s c with
    | none => none
    | some s1 => runCalls P s1 cs

/-- The signals of two calls of `setSelectedLayoutIndex( index )` in a row, and the state
after each; `none` if one of the calls fails. -/
def setTwice (P : PagePolicy) (s : KeyboardLayoutsProvider) (index : Int) :
    Option (KeyboardLayoutsProvider × KeyboardLayoutsProvider × List Signal) :=
  match setSelectedLayoutIndex P s index with
  | none => none
  | some (s1, sigs1) =>
    match setSelectedLayoutIndex P s1 index with
    | none => none
    | some (s2, sigs2) => some (s1, s2, sigs1 ++ sigs2)

end KeyboardLayoutsProvider

/-! ## Concrete inputs -/

/-- The text `de_DE`. -/
def DE_DE : QString := [100, 101, 95, 68, 69]
/-- The text `fr_FR`. -/
def FR_FR : QString := [102, 114, 95, 70, 82]
/-- The text `lang=de`. -/
def HINT_DE : QString := [108, 97, 110, 103, 61, 100, 101]
/-- The text `lang=fr`. -/
def HINT_FR : QString := [108, 97, 110, 103, 61, 102, 114]

/-- A view policy: `setPages` resets the cursor, `setCurrentPage` wraps around. -/
def resetAndWrap : PagePolicy :=
  { cursorAfterSetPages := fun _ _ => 0
    cursorAfterSetCurrentPage := fun v n => if 0 ≤ n ∧ n < (v.pages.length : Int) then n else 0 }

/-- A catalog with the keys `de_DE` and `en_US`. -/
def catalogDeEn : QMap :=
  [(DE_DE, ⟨[[1, 2], [3]], [[4]], [[5]], [[6]], [[7]]⟩),
   (EN_US, ⟨[[11, 12], [13]], [[14]], [[15]], [[16]], [[17]]⟩)]

/-- A catalog with the key `fr_FR` alone. -/
def catalogFr : QMap := [(FR_FR, ⟨[[21]], [[22]], [[23]], [[24]], [[25]]⟩)]

/-- A provider over `catalogDeEn` with nothing selected. -/
def providerDeEn : KeyboardLayoutsProvider :=
  { KeyboardLayoutsProvider.initial with layoutData := catalogDeEn }

/-- A resource file system with the single locale directory `fr_FR`, in which
`symbols.json` cannot be opened; every other file holds its own path as content, and the
parser yields one page with the content. -/
def resourcesFr : Resources :=
  { baseExists := true
    localeDirs := [FR_FR]
    readFile := fun path =>
      if path = LAYOUTS_BASE ++ FR_FR ++ SLASH ++ SYMBOLS_FILENAME then none else some path
    parseArray := fun bytes => [bytes] }

/-- A provider over `catalogFr` with `fr_FR` selected. -/
def providerFr : KeyboardLayoutsProvider :=
  { KeyboardLayoutsProvider.initial with
    layoutData := catalogFr
    selectedLayoutIndex := 0
    alphabetModel := ⟨[[21]], 0⟩
    symbolsModel := ⟨[[22]], 0⟩
    dialModel := ⟨[[23]], 0⟩
    numbersModel := ⟨[[24]], 0⟩
    digitsModel := ⟨[[25]], 0⟩ }

end OVK

namespace OVK

/-! ## Lemmas on the string order -/

theorem qstrLt_irrefl (a : QString) : qstrLt a a = false := by
  induction a with
  | nil => rfl
  | cons x xs ih => simp [qstrLt, ih]

theorem qstrLt_ne {a b : QString} (h : qstrLt a b = true) : a ≠ b := by
  intro hab
  subst hab
  rw [qstrLt_irrefl] at h
  exact Bool.false_ne_true h

theorem qstrLt_trans : ∀ {a b c : QString}, qstrLt a b = true → qstrLt b c = true →
    qstrLt a c = true
  | [], [], _, h, _ => by simp [qstrLt] at h
  | [], _ :: _, [], _, h => by simp [qstrLt] at h
  | [], _ :: _, _ :: _, _, _ => by simp [qstrLt]
  | _ :: _, [], _, h, _ => by simp [qstrLt] at h
  | _ :: _, _ :: _, [], _, h => by simp [qstrLt] at h
  | x :: xs, y :: ys, z :: zs, h1, h2 => by
    simp only [qstrLt] at h1 h2 ⊢
    by_cases hxy : x < y
    · by_cases hyz : y < z
      · have : x < z := by omega
        simp [this]
      · by_cases hzy : z < y
        · simp [hyz, hzy] at h2
        · have : x < z := by omega
          simp [this]
    · by_cases hyx : y < x
      · simp [hxy, hyx] at h1
      · have hxy' : x = y := by omega
        subst hxy'
        simp only [hxy, if_false] at h1
        by_cases hyz : x < z
        · simp [hyz]
        · by_cases hzy : z < x
          · simp [hyz, hzy] at h2
          · simp only [hyz, hzy, if_false] at h2 ⊢
            exact qstrLt_trans h1 h2

theorem qstrLt_total : ∀ {a b : QString}, qstrLt a b = false → qstrLt b a = false → a = b
  | [], [], _, _ => rfl
  | [], _ :: _, h, _ => by simp [qstrLt] at h
  | _ :: _, [], _, h => by simp [qstrLt] at h
  | x :: xs, y :: ys, h1, h2 => by
    simp only [qstrLt] at h1 h2
    by_cases hxy : x < y
    · simp [hxy] at h1
    · by_cases hyx : y < x
      · simp [hyx] at h2
      · simp only [hxy, hyx, if_false] at h1 h2
        have hxy' : x = y := by omega
        rw [hxy', qstrLt_total h1 h2]

/-! ## Lemmas on `indexOf` -/

theorem indexOf_ge (l : List QString) (x : QString) : -1 ≤ indexOf l x := by
  induction l with
  | nil => simp [indexOf]
  | cons y ys ih =>
    simp only [indexOf]
    split_ifs <;> omega

theorem indexOf_eq_neg_one_iff (l : List QString) (x : QString) :
    indexOf l x = -1 ↔ x ∉ l := by
  induction l with
  | nil => simp [indexOf]
  | cons y ys ih =>
    have hge := indexOf_ge ys x
    simp only [indexOf, List.mem_cons, not_or]
    by_cases hyx : y = x
    · simp [hyx]
    · simp only [hyx, if_false]
      have hxy : ¬ x = y := fun h => hyx h.symm
      split_ifs with hr
      · have : indexOf ys x = -1 := by omega
        simp [hxy, ih.mp this]
      · constructor
        · intro h
          omega
        · intro h
          have := ih.mpr h.2
          omega

theorem indexOf_get?_of_mem (l : List QString) (x : QString) (h : x ∈ l) :
    0 ≤ indexOf l x ∧ indexOf l x < (l.length : Int) ∧ l.get? (indexOf l x).toNat = some x := by
  induction l with
  | nil => simp at h
  | cons y ys ih =>
    simp only [indexOf]
    by_cases hyx : y = x
    · simp [hyx]
    · simp only [hyx, if_false]
      have hmem : x ∈ ys := by
        rcases List.mem_cons.mp h with h | h
        · exact absurd h.symm hyx
        · exact h
      obtain ⟨h0, h1, h2⟩ := ih hmem
      have hr : ¬ indexOf ys x < 0 := by omega
      simp only [hr, if_false, List.length_cons]
      refine ⟨by omega, by push_cast; omega, ?_⟩
      have : (indexOf ys x + 1).toNat = (indexOf ys x).toNat + 1 := by omega
      rw [this]
      simpa using h2

/-! ## Lemmas on the catalog -/

namespace QMap

theorem wf_tail {e : QString × LayoutData} {m : QMap} (h : WF (e :: m)) : WF m := by
  unfold WF keys at h ⊢
  rw [List.map_cons] at h
  exact (List.pairwise_cons.mp h).2

theorem wf_head_lt {k : QString} {v : LayoutData} {m : QMap} (h : WF ((k, v) :: m))
    {key : QString} (hk : key ∈ keys m) : qstrLt k key = true := by
  unfold WF keys at h
  rw [List.map_cons] at h
  exact (List.pairwise_cons.mp h).1 key hk

theorem keys_cons (e : QString × LayoutData) (m : QMap) : keys (e :: m) = e.1 :: keys m := rfl

/-- On a well-formed map `operator[]` of a key that is present inserts nothing. -/
theorem ensure_of_mem : ∀ (m : QMap) (key : QString), WF m → key ∈ keys m → ensure m key = m
  | [], _, _, h => by simp [keys] at h
  | (k, v) :: rest, key, hwf, h => by
    rw [keys_cons, List.mem_cons] at h
    simp only [ensure]
    rcases h with h | h
    · subst h
      simp [qstrLt_irrefl]
    · have hlt := wf_head_lt hwf h
      simp [hlt, ensure_of_mem rest key (wf_tail hwf) h]

/-- On a well-formed map the value under the key of the entry at position `i` is the
value of that entry. -/
theorem value?_of_get? : ∀ (m : QMap) (i : Nat) (k : QString) (v : LayoutData), WF m →
    m.get? i = some (k, v) → value? m k = some v
  | [], _, _, _, _, h => by simp at h
  | (k0, v0) :: rest, 0, k, v, _, h => by
    simp at h
    simp [value?, h.1, h.2]
  | (k0, v0) :: rest, i + 1, k, v, hwf, h => by
    simp only [List.get?_cons_succ] at h
    have hmem : k ∈ keys rest := by
      unfold keys
      exact List.mem_map.mpr ⟨(k, v), List.get?_mem h, rfl⟩
    have hne : k0 ≠ k := qstrLt_ne (wf_head_lt hwf hmem)
    simp [value?, hne, value?_of_get? rest i k v (wf_tail hwf) h]

theorem keys_get? (m : QMap) (i : Nat) : (keys m).get? i = (m.get? i).map Prod.fst := by
  simp [keys, List.get?_eq_getElem?]

theorem keys_length (m : QMap) : (keys m).length = m.length := by simp [keys]

theorem value?_isSome_of_mem : ∀ (m : QMap) (key : QString), key ∈ keys m →
    ∃ v, value? m key = some v
  | [], _, h => by simp [keys] at h
  | (k, v) :: rest, key, h => by
    rw [keys_cons, List.mem_cons] at h
    by_cases hk : k = key
    · exact ⟨v, by simp [value?, hk]⟩
    · have : key ∈ keys rest := by
        rcases h with h | h
        · exact absurd h.symm hk
        · exact h
      obtain ⟨w, hw⟩ := value?_isSome_of_mem rest key this
      exact ⟨w, by simp [value?, hk, hw]⟩

theorem subscript_of_mem (m : QMap) (key : QString) (v : LayoutData) (hwf : WF m)
    (h : value? m key = some v) (hmem : key ∈ keys m) : subscript m key = v := by
  simp [subscript, ensure_of_mem m key hwf hmem, h]

end QMap

open KeyboardLayoutsProvider

/-! ## `setSelectedLayoutIndex` -/

theorem setSelectedLayoutIndex_rejects (P : PagePolicy) (s : KeyboardLayoutsProvider) (i : Int)
    (h : s.selectedLayoutIndex = i ∨ i < 0 ∨ s.layoutsCount ≤ i) :
    setSelectedLayoutIndex P s i = some (s, []) := by
  unfold setSelectedLayoutIndex
  by_cases hsel : s.selectedLayoutIndex = i
  · simp [hsel]
  · have hr : i ≥ ((layoutsList s).length : Int) ∨ i < 0 := by
      rcases h with h | h | h
      · exact absurd h hsel
      · exact Or.inr h
      · left
        simpa [layoutsCount, layoutsList, QMap.size, QMap.keys] using h
    simp [hsel, hr]

theorem setSelectedLayoutIndex_accepts (P : PagePolicy) (s : KeyboardLayoutsProvider) (i : Int)
    (key : QString) (layout : LayoutData) (hwf : s.layoutData.WF)
    (hsel : s.selectedLayoutIndex ≠ i) (h0 : 0 ≤ i)
    (hget : s.layoutData.get? i.toNat = some (key, layout)) :
    setSelectedLayoutIndex P s i =
      some ({ layoutData := s.layoutData
              alphabetModel := s.alphabetModel.setPages P layout.alphabet
              symbolsModel := s.symbolsModel.setPages P layout.symbols
              dialModel := s.dialModel.setPages P layout.dial
              numbersModel := s.numbersModel.setPages P layout.numbers
              digitsModel := s.digitsModel.setPages P layout.digits
              selectedLayoutIndex := i },
            [Signal.selectedLayoutIndexChanged, Signal.selectedLayoutChanged]) := by
  have hlen : i.toNat < s.layoutData.length := by
    by_contra hcon
    rw [List.get?_eq_none.mpr (by omega)] at hget
    exact Option.noConfusion hget
  have hkey : (layoutsList s).get? i.toNat = some key := by
    simp only [layoutsList]
    rw [QMap.keys_get?, hget]
    rfl
  have hmem : key ∈ s.layoutData.keys := List.get?_mem hkey
  have hval := QMap.value?_of_get? s.layoutData i.toNat key layout hwf hget
  have hr : ¬ (i ≥ ((layoutsList s).length : Int) ∨ i < 0) := by
    simp only [layoutsList, QMap.keys_length]
    omega
  unfold setSelectedLayoutIndex
  simp only [hsel, if_false, hr, hkey]
  rw [QMap.subscript_of_mem s.layoutData key layout hwf hval hmem,
    QMap.ensure_of_mem s.layoutData key hwf hmem]

/-- Claim C1: on a well-formed catalog, for an index `i` in `[0, layoutsCount())` other than the
selected one, `setSelectedLayoutIndex( i )` returns with the selected index equal to `i`
and with the pages of the alphabet, symbols, dial, numbers and digits views equal to the
five page arrays of the catalog entry whose key is at position `i` of `layoutsList()`;
the catalog itself is unchanged. -/
theorem setSelectedLayoutIndex_selects (P : PagePolicy) (s : KeyboardLayoutsProvider) (i : Int)
    (hwf : s.layoutData.WF) (h0 : 0 ≤ i) (h1 : i < s.layoutsCount)
    (hne : i ≠ s.selectedLayoutIndex) :
    ∃ key layout s1 sigs,
      s.layoutsList.get? i.toNat = some key ∧
      s.layoutData.value? key = some layout ∧
      s.layoutData.get? i.toNat = some (key, layout) ∧
      setSelectedLayoutIndex P s i = some (s1, sigs) ∧
      s1.selectedLayoutIndex = i ∧
      s1.layoutData = s.layoutData ∧
      s1.alphabetModel.pages = layout.alphabet ∧
      s1.symbolsModel.pages = layout.symbols ∧
      s1.dialModel.pages = layout.dial ∧
      s1.numbersModel.pages = layout.numbers ∧
      s1.digitsModel.pages = layout.digits := by
  have hlen : i.toNat < s.layoutData.length := by
    simp only [layoutsCount, QMap.size] at h1
    omega
  obtain ⟨⟨key, layout⟩, hget⟩ : ∃ e, s.layoutData.get? i.toNat = some e :=
    ⟨s.layoutData.get ⟨i.toNat, hlen⟩, List.get?_eq_get hlen⟩
  have hkey : (layoutsList s).get? i.toNat = some key := by
    simp only [layoutsList]
    rw [QMap.keys_get?, hget]
    rfl
  refine ⟨key, layout, _, _, hkey, QMap.value?_of_get? _ _ _ _ hwf hget, hget,
    setSelectedLayoutIndex_accepts P s i key layout hwf (fun h => hne h.symm) h0 hget,
    rfl, rfl, rfl, rfl, rfl, rfl, rfl⟩

/-- An instance: selecting index 1 (`en_US`) on the provider over `{de_DE, en_US}`. -/
theorem setSelectedLayoutIndex_selects_witness :
    catalogDeEn.WF ∧ (0 : Int) ≤ 1 ∧ (1 : Int) < providerDeEn.layoutsCount ∧
    (1 : Int) ≠ providerDeEn.selectedLayoutIndex ∧
    ∃ key layout s1 sigs,
      providerDeEn.layoutsList.get? (1 : Int).toNat = some key ∧
      providerDeEn.layoutData.value? key = some layout ∧
      providerDeEn.layoutData.get? (1 : Int).toNat = some (key, layout) ∧
      setSelectedLayoutIndex resetAndWrap providerDeEn 1 = some (s1, sigs) ∧
      s1.selectedLayoutIndex = 1 ∧
      s1.layoutData = providerDeEn.layoutData ∧
      s1.alphabetModel.pages = layout.alphabet ∧
      s1.symbolsModel.pages = layout.symbols ∧
      s1.dialModel.pages = layout.dial ∧
      s1.numbersModel.pages = layout.numbers ∧
      s1.digitsModel.pages = layout.digits :=
  ⟨by decide, by decide, by decide, by decide,
    setSelectedLayoutIndex_selects resetAndWrap providerDeEn 1 (by decide) (by decide)
      (by decide) (by decide)⟩

/-- Claim C2: for an index `i` with `i < 0` or `i >= layoutsCount()`,
`setSelectedLayoutIndex( i )` returns, leaves the whole provider state (selected index,
catalog, the five views) as it was and emits no signal. -/
theorem setSelectedLayoutIndex_out_of_range (P : PagePolicy) (s : KeyboardLayoutsProvider)
    (i : Int) (h : i < 0 ∨ s.layoutsCount ≤ i) :
    setSelectedLayoutIndex P s i = some (s, []) :=
  setSelectedLayoutIndex_rejects P s i (Or.inr h)

/-- An instance: index 2 on a catalog of two locales. -/
theorem setSelectedLayoutIndex_out_of_range_witness :
    ((2 : Int) < 0 ∨ providerDeEn.layoutsCount ≤ 2) ∧
    setSelectedLayoutIndex resetAndWrap providerDeEn 2 = some (providerDeEn, []) :=
  ⟨by decide, setSelectedLayoutIndex_out_of_range resetAndWrap providerDeEn 2 (by decide)⟩

/-- Without any assumption on the catalog, `setSelectedLayoutIndex( i )` returns: either it
rejects `i`, or it emits the two signals and leaves `i` selected. -/
theorem setSelectedLayoutIndex_total (P : PagePolicy) (s : KeyboardLayoutsProvider) (i : Int) :
    (setSelectedLayoutIndex P s i = some (s, []) ∧
      (s.selectedLayoutIndex = i ∨ i < 0 ∨ s.layoutsCount ≤ i)) ∨
    (∃ s1, setSelectedLayoutIndex P s i =
        some (s1, [Signal.selectedLayoutIndexChanged, Signal.selectedLayoutChanged]) ∧
      s1.selectedLayoutIndex = i ∧
      s.selectedLayoutIndex ≠ i ∧ 0 ≤ i ∧ i < s.layoutsCount) := by
  by_cases h : s.selectedLayoutIndex = i ∨ i < 0 ∨ s.layoutsCount ≤ i
  · exact Or.inl ⟨setSelectedLayoutIndex_rejects P s i h, h⟩
  · right
    have hsel : ¬ s.selectedLayoutIndex = i := fun hh => h (Or.inl hh)
    have h0 : 0 ≤ i := by
      by_contra hh
      exact h (Or.inr (Or.inl (by omega)))
    have h1 : i < s.layoutsCount := by
      by_contra hh
      exact h (Or.inr (Or.inr (by omega)))
    have hlen : i.toNat < (layoutsList s).length := by
      simp only [layoutsCount, QMap.size] at h1
      simp only [layoutsList, QMap.keys_length]
      omega
    have hr : ¬ (i ≥ ((layoutsList s).length : Int) ∨ i < 0) := by omega
    unfold setSelectedLayoutIndex
    simp only [hsel, if_false, hr, List.get?_eq_get hlen]
    exact ⟨_, rfl, rfl, hsel, h0, h1⟩

/-- Claim C3, as the code has it: two calls of `setSelectedLayoutIndex( i )` in a row both
return, the second leaves the state produced by the first unchanged and emits nothing, and
together they emit one `selectedLayoutIndexChanged` followed by one `selectedLayoutChanged`
when `i` is in `[0, layoutsCount())` and differs from the selected index, and no signal at
all otherwise. -/
theorem setSelectedLayoutIndex_idempotent (P : PagePolicy) (s : KeyboardLayoutsProvider)
    (i : Int) :
    ∃ s1, setSelectedLayoutIndex P s1 i = some (s1, []) ∧
      setTwice P s i = some (s1, s1,
        if s.selectedLayoutIndex ≠ i ∧ 0 ≤ i ∧ i < s.layoutsCount
        then [Signal.selectedLayoutIndexChanged, Signal.selectedLayoutChanged] else []) := by
  rcases setSelectedLayoutIndex_total P s i with ⟨hres, hcase⟩ | ⟨s1, hres, hs1, hsel, h0, h1⟩
  · refine ⟨s, hres, ?_⟩
    have hcond : ¬ (s.selectedLayoutIndex ≠ i ∧ 0 ≤ i ∧ i < s.layoutsCount) := by
      rintro ⟨ha, hb, hc⟩
      rcases hcase with h | h | h
      · exact ha h
      · omega
      · omega
    simp [setTwice, hres, hcond]
  · have hsecond : setSelectedLayoutIndex P s1 i = some (s1, []) :=
      setSelectedLayoutIndex_rejects P s1 i (Or.inl hs1)
    refine ⟨s1, hsecond, ?_⟩
    have hcond : s.selectedLayoutIndex ≠ i ∧ 0 ≤ i ∧ i < s.layoutsCount := ⟨hsel, h0, h1⟩
    rw [if_pos hcond]
    simp only [setTwice, hres, hsecond, List.append_nil]

/-- Claim C3 as stated fails: on the provider over `{de_DE, en_US}` with nothing selected,
two calls of `setSelectedLayoutIndex( 2 )` emit no signal at all, not one set of them. -/
theorem setSelectedLayoutIndex_twice_out_of_range_silent :
    setTwice resetAndWrap providerDeEn 2 = some (providerDeEn, providerDeEn, []) ∧
    ¬ ∃ s1 s2, setTwice resetAndWrap providerDeEn 2 =
        some (s1, s2, [Signal.selectedLayoutIndexChanged, Signal.selectedLayoutChanged]) := by
  have h : setTwice resetAndWrap providerDeEn 2 = some (providerDeEn, providerDeEn, []) := by
    decide
  refine ⟨h, ?_⟩
  rintro ⟨s1, s2, h2⟩
  rw [h] at h2
  simp at h2

/-! ## `split` -/

theorem splitGo_skip (sep : QString) : ∀ (xs : QString) (skip : Nat) (acc post : QString),
    xs.length = skip → splitGo sep skip acc (xs ++ post) = splitGo sep 0 acc post
  | [], skip, acc, post, h => by
    simp only [List.length_nil] at h
    subst h
    rfl
  | x :: xs, 0, acc, post, h => by simp at h
  | x :: xs, skip + 1, acc, post, h => by
    simp only [List.length_cons, Nat.add_right_cancel_iff] at h
    simp only [List.cons_append, splitGo]
    exact splitGo_skip sep xs skip acc post h

theorem prefix_before_last (pre sep post : QString) :
    pre ++ sep.dropLast <+: pre ++ sep ++ post := by
  rw [List.append_assoc]
  exact (List.prefix_append_right_inj pre).mpr
    ((List.dropLast_prefix sep).trans (List.prefix_append sep post))

/-- A string without the separator is the single part of its split. -/
theorem splitGo_of_absent (sep : QString) : ∀ (s acc : QString), ¬ sep <:+: s →
    splitGo sep 0 acc s = [acc.reverse ++ s]
  | [], acc, _ => by simp [splitGo]
  | c :: cs, acc, h => by
    have hpre : ¬ sep <+: c :: cs := fun hp => h hp.isInfix
    have hcs : ¬ sep <:+: cs := fun hi => h (List.infix_cons_iff.mpr (Or.inr hi))
    have hb : sep.isPrefixOf (c :: cs) = false := by
      rw [Bool.eq_false_iff]
      intro hh
      exact hpre (List.isPrefixOf_iff_prefix.mp hh)
    simp only [splitGo, hb, Bool.false_eq_true, if_false]
    rw [splitGo_of_absent sep cs (c :: acc) hcs]
    simp

/-- At the first occurrence of the separator the split yields the text before it and goes
on with the text after it. -/
theorem splitGo_at_first (sep : QString) (hsep : sep ≠ []) : ∀ (pre acc post : QString),
    ¬ sep <:+: pre ++ sep.dropLast →
    splitGo sep 0 acc (pre ++ sep ++ post) = (acc.reverse ++ pre) :: splitGo sep 0 [] post
  | [], acc, post, _ => by
    obtain ⟨c, sep1, hc⟩ : ∃ c sep1, sep = c :: sep1 := by
      cases sep with
      | nil => exact absurd rfl hsep
      | cons c sep1 => exact ⟨c, sep1, rfl⟩
    have hb : sep.isPrefixOf (c :: (sep1 ++ post)) = true := by
      rw [List.isPrefixOf_iff_prefix, hc]
      exact List.prefix_append (c :: sep1) post
    have hlen : sep1.length = sep.length - 1 := by simp [hc]
    have hs : [] ++ sep ++ post = c :: (sep1 ++ post) := by simp [hc]
    rw [hs]
    simp only [splitGo, hb, if_true]
    rw [splitGo_skip sep sep1 (sep.length - 1) [] post hlen]
    simp
  | c :: pre, acc, post, h => by
    have hpre : ¬ sep <+: c :: (pre ++ sep ++ post) := by
      intro hp
      have h2 : (c :: pre ++ sep.dropLast) <+: c :: (pre ++ sep ++ post) :=
        (List.prefix_cons_inj c).mpr (prefix_before_last pre sep post)
      have hle : sep.length ≤ (c :: pre ++ sep.dropLast).length := by
        simp only [List.length_append, List.length_cons, List.length_dropLast]
        omega
      exact h (List.prefix_of_prefix_length_le hp h2 hle).isInfix
    have htl : ¬ sep <:+: pre ++ sep.dropLast := fun hi =>
      h (List.infix_cons_iff.mpr (Or.inr hi))
    have hb : sep.isPrefixOf (c :: (pre ++ sep ++ post)) = false := by
      rw [Bool.eq_false_iff]
      intro hh
      exact hpre (List.isPrefixOf_iff_prefix.mp hh)
    have hs : c :: pre ++ sep ++ post = c :: (pre ++ sep ++ post) := by simp
    rw [hs]
    simp only [splitGo, hb, Bool.false_eq_true, if_false]
    rw [splitGo_at_first sep hsep pre (c :: acc) post htl]
    simp

/-- A string that contains the separator contains a first occurrence of it. -/
theorem exists_first_occurrence (sep : QString) (hsep : sep ≠ []) : ∀ (s : QString),
    sep <:+: s → ∃ pre post, s = pre ++ sep ++ post ∧ ¬ sep <:+: pre ++ sep.dropLast
  | [], h => absurd (List.infix_nil.mp h) hsep
  | c :: cs, h => by
    by_cases hp : sep <+: c :: cs
    · obtain ⟨post, hpost⟩ := hp
      refine ⟨[], post, by simp [hpost], ?_⟩
      intro hi
      have := hi.length_le
      have hpos : 0 < sep.length := List.length_pos.mpr hsep
      simp only [List.nil_append, List.length_dropLast] at this
      omega
    · have hcs : sep <:+: cs := by
        rcases List.infix_cons_iff.mp h with h1 | h1
        · exact absurd h1 hp
        · exact h1
      obtain ⟨pre, post, hs, hfirst⟩ := exists_first_occurrence sep hsep cs hcs
      refine ⟨c :: pre, post, by simp [hs], ?_⟩
      intro hi
      rcases List.infix_cons_iff.mp hi with h1 | h1
      · apply hp
        refine h1.trans ?_
        rw [hs]
        exact (List.prefix_cons_inj c).mpr (prefix_before_last pre sep post)
      · exact hfirst h1

/-- The first two parts of the split of a string that contains the separator: the text
before the first occurrence, and the text after it up to the next occurrence if any. -/
theorem split_of_present (sep s : QString) (hsep : sep ≠ []) (h : sep <:+: s) :
    ∃ pre tag rest, s = pre ++ sep ++ tag ++ rest ∧
      ¬ sep <:+: pre ++ sep.dropLast ∧
      ((rest = [] ∧ ¬ sep <:+: tag) ∨ (sep <+: rest ∧ ¬ sep <:+: tag ++ sep.dropLast)) ∧
      (split sep s).get? 0 = some pre ∧ (split sep s).get? 1 = some tag := by
  obtain ⟨pre, post, hs, hfirst⟩ := exists_first_occurrence sep hsep s h
  have hsplit : split sep s = pre :: splitGo sep 0 [] post := by
    rw [split, hs, splitGo_at_first sep hsep pre [] post hfirst]
    simp
  by_cases hpost : sep <:+: post
  · obtain ⟨tag, post2, hs2, hfirst2⟩ := exists_first_occurrence sep hsep post hpost
    refine ⟨pre, tag, sep ++ post2, ?_, hfirst, Or.inr ⟨List.prefix_append sep post2, hfirst2⟩,
      ?_, ?_⟩
    · rw [hs, hs2]
      simp
    · rw [hsplit]
      rfl
    · rw [hsplit, hs2, splitGo_at_first sep hsep tag [] post2 hfirst2]
      simp
  · refine ⟨pre, post, [], ?_, hfirst, Or.inl ⟨rfl, hpost⟩, ?_, ?_⟩
    · rw [hs]
      simp
    · rw [hsplit]
      rfl
    · rw [hsplit, splitGo_of_absent sep post [] hpost]
      simp

theorem LANG_MARKER_ne_nil : LANG_MARKER ≠ [] := by decide

/-! ## `applySystemLocaleLayout` -/

/-- A hint without the marker `lang=` has no element 1 in its split: the resolution aborts. -/
theorem resolveLang_of_absent (m : QMap) (im : QString) (h : ¬ LANG_MARKER <:+: im) :
    resolveLang m im = none := by
  have hs : split LANG_MARKER im = [im] := by
    rw [split, splitGo_of_absent LANG_MARKER im [] h]
    simp
  simp [resolveLang, hs]

theorem resolveLang_of_tag (m : QMap) (im tag : QString)
    (h : (split LANG_MARKER im).get? 1 = some tag) :
    resolveLang m im = some (if tag ∈ m.keys then tag
      else if tag ++ FR_SUFFIX ∈ m.keys then tag ++ FR_SUFFIX else EN_US) := by
  unfold resolveLang
  simp only [h, QMap.contains]
  by_cases h1 : tag ∈ m.keys
  · simp [h1]
  · by_cases h2 : tag ++ FR_SUFFIX ∈ m.keys
    · simp [h1, h2]
    · simp [h1, h2]

/-- Claim C4 fails on the code: on the empty hint (the value of an unset `QT_IM_MODULE`) the
split has the single element `""`, so `im.split( "lang=" )[1]` is out of range and neither
the resolution nor `applySystemLocaleLayout` yields a result, whatever the catalog. -/
theorem applySystemLocaleLayout_empty_hint (P : PagePolicy) (s : KeyboardLayoutsProvider) :
    split LANG_MARKER [] = [[]] ∧ resolveLang s.layoutData [] = none ∧
    applySystemLocaleLayout P s [] = none := by
  have h : resolveLang s.layoutData [] = none := resolveLang_of_absent _ _ (by decide)
  refine ⟨by decide, h, ?_⟩
  simp [applySystemLocaleLayout, h]

/-- Claim C5: for a hint that contains the marker `lang=`, element 1 of the hint split on
`lang=` exists and is the text `tag` after the first marker, up to the next marker if any;
the resolved locale is `tag` if `tag` is a catalog key, otherwise `tag` followed by `_FR` if
that is a catalog key, otherwise `en_US`. Keys are compared by equality of code units. -/
theorem resolveLang_of_marker (m : QMap) (im : QString) (h : LANG_MARKER <:+: im) :
    ∃ pre tag rest, im = pre ++ LANG_MARKER ++ tag ++ rest ∧
      ¬ LANG_MARKER <:+: pre ++ LANG_MARKER.dropLast ∧
      ((rest = [] ∧ ¬ LANG_MARKER <:+: tag) ∨
        (LANG_MARKER <+: rest ∧ ¬ LANG_MARKER <:+: tag ++ LANG_MARKER.dropLast)) ∧
      (split LANG_MARKER im).get? 1 = some tag ∧
      resolveLang m im = some (if tag ∈ m.keys then tag
        else if tag ++ FR_SUFFIX ∈ m.keys then tag ++ FR_SUFFIX else EN_US) := by
  obtain ⟨pre, tag, rest, hs, hfirst, hnext, _, htag⟩ :=
    split_of_present LANG_MARKER im LANG_MARKER_ne_nil h
  exact ⟨pre, tag, rest, hs, hfirst, hnext, htag, resolveLang_of_tag m im tag htag⟩

/-- An instance: the hint `lang=de` on the catalog `{de_DE, en_US}`. -/
theorem resolveLang_of_marker_witness :
    LANG_MARKER <:+: HINT_DE ∧
    ∃ pre tag rest, HINT_DE = pre ++ LANG_MARKER ++ tag ++ rest ∧
      ¬ LANG_MARKER <:+: pre ++ LANG_MARKER.dropLast ∧
      ((rest = [] ∧ ¬ LANG_MARKER <:+: tag) ∨
        (LANG_MARKER <+: rest ∧ ¬ LANG_MARKER <:+: tag ++ LANG_MARKER.dropLast)) ∧
      (split LANG_MARKER HINT_DE).get? 1 = some tag ∧
      resolveLang catalogDeEn HINT_DE = some (if tag ∈ catalogDeEn.keys then tag
        else if tag ++ FR_SUFFIX ∈ catalogDeEn.keys then tag ++ FR_SUFFIX else EN_US) :=
  ⟨by decide, resolveLang_of_marker catalogDeEn HINT_DE (by decide)⟩

theorem applySystemLocaleLayout_of_resolved (P : PagePolicy) (s : KeyboardLayoutsProvider)
    (im lang : QString) (h : resolveLang s.layoutData im = some lang) :
    applySystemLocaleLayout P s im = setSelectedLayoutIndex P s (indexOf s.layoutsList lang) := by
  simp [applySystemLocaleLayout, h]

/-- Claim C6 as stated fails: with the catalog keys `{de_DE, en_US}`, nothing selected and the
hint `lang=de`, the resolved locale is `en_US` and the locale selected is `en_US`, not
`de_DE`. -/
theorem scenarioA_resolves_en_US :
    resolveLang catalogDeEn HINT_DE = some EN_US ∧
    resolveLang catalogDeEn HINT_DE ≠ some DE_DE ∧
    providerDeEn.selectedLayoutIndex = -1 ∧
    (applySystemLocaleLayout resetAndWrap providerDeEn HINT_DE).bind
      (fun r => r.1.selectedLayout) = some EN_US ∧
    (applySystemLocaleLayout resetAndWrap providerDeEn HINT_DE).bind
      (fun r => r.1.selectedLayout) ≠ some DE_DE := by
  decide

/-- Claim C6, as the code has it: when the catalog's keys are exactly `{de_DE, en_US}` and the
hint is `lang=de`, the tag `de` is no key and neither is `de_FR`, so the resolved locale is
`en_US`; from a state with no selection `applySystemLocaleLayout` selects index 1, the
position of `en_US`, emits the two signals and loads the five `en_US` page arrays. -/
theorem scenarioA_selects_en_US (P : PagePolicy) (s : KeyboardLayoutsProvider)
    (hkeys : s.layoutData.keys = [DE_DE, EN_US]) (hsel : s.selectedLayoutIndex = -1) :
    resolveLang s.layoutData HINT_DE = some EN_US ∧
    ∃ s1 layout, s.layoutData.value? EN_US = some layout ∧
      applySystemLocaleLayout P s HINT_DE =
        some (s1, [Signal.selectedLayoutIndexChanged, Signal.selectedLayoutChanged]) ∧
      s1.selectedLayoutIndex = 1 ∧ s1.selectedLayout = some EN_US ∧
      s1.layoutData = s.layoutData ∧
      s1.alphabetModel.pages = layout.alphabet ∧
      s1.symbolsModel.pages = layout.symbols ∧
      s1.dialModel.pages = layout.dial ∧
      s1.numbersModel.pages = layout.numbers ∧
      s1.digitsModel.pages = layout.digits := by
  have htag : (split LANG_MARKER HINT_DE).get? 1 = some [100, 101] := by decide
  have hres : resolveLang s.layoutData HINT_DE = some EN_US := by
    rw [resolveLang_of_tag s.layoutData HINT_DE _ htag, hkeys]
    decide
  have hwf : s.layoutData.WF := by
    unfold QMap.WF
    rw [hkeys]
    decide
  obtain ⟨d1, d2, hdata⟩ : ∃ d1 d2, s.layoutData = [(DE_DE, d1), (EN_US, d2)] := by
    match hm : s.layoutData, hkeys with
    | [(k1, d1), (k2, d2)], hk =>
      simp only [QMap.keys, List.map_cons, List.map_nil, List.cons.injEq, and_true] at hk
      exact ⟨d1, d2, by rw [hk.1, hk.2]⟩
  have hget : s.layoutData.get? (1 : Int).toNat = some (EN_US, d2) := by
    rw [hdata]
    rfl
  have hidx : indexOf s.layoutsList EN_US = 1 := by
    simp only [layoutsList]
    rw [hkeys]
    decide
  have hval : s.layoutData.value? EN_US = some d2 :=
    QMap.value?_of_get? _ _ _ _ hwf hget
  have happ := setSelectedLayoutIndex_accepts P s 1 EN_US d2 hwf (by rw [hsel]; decide)
    (by decide) hget
  have hcall : applySystemLocaleLayout P s HINT_DE = setSelectedLayoutIndex P s 1 := by
    rw [applySystemLocaleLayout_of_resolved P s HINT_DE EN_US hres, hidx]
  rw [← hcall] at happ
  refine ⟨hres, _, d2, hval, happ, rfl, ?_, rfl, rfl, rfl, rfl, rfl, rfl⟩
  simp only [selectedLayout, layoutsList]
  rw [hkeys]
  decide

/-- An instance: the provider over `catalogDeEn` with nothing selected. -/
theorem scenarioA_selects_en_US_witness :
    providerDeEn.layoutData.keys = [DE_DE, EN_US] ∧ providerDeEn.selectedLayoutIndex = -1 ∧
    resolveLang providerDeEn.layoutData HINT_DE = some EN_US ∧
    ∃ s1 layout, providerDeEn.layoutData.value? EN_US = some layout ∧
      applySystemLocaleLayout resetAndWrap providerDeEn HINT_DE =
        some (s1, [Signal.selectedLayoutIndexChanged, Signal.selectedLayoutChanged]) ∧
      s1.selectedLayoutIndex = 1 ∧ s1.selectedLayout = some EN_US ∧
      s1.layoutData = providerDeEn.layoutData ∧
      s1.alphabetModel.pages = layout.alphabet ∧
      s1.symbolsModel.pages = layout.symbols ∧
      s1.dialModel.pages = layout.dial ∧
      s1.numbersModel.pages = layout.numbers ∧
      s1.digitsModel.pages = layout.digits :=
  ⟨by decide, by decide, scenarioA_selects_en_US resetAndWrap providerDeEn (by decide) (by decide)⟩

/-- Claim C7: for a hint containing `lang=` whose resolved locale `lang` is not a key of the
catalog, `layoutsList().indexOf( lang )` is -1 and `applySystemLocaleLayout` returns with the
whole provider state (selected index, catalog, the five views) unchanged and no signal
emitted. -/
theorem applySystemLocaleLayout_unresolved (P : PagePolicy) (s : KeyboardLayoutsProvider)
    (im lang : QString) (_hm : LANG_MARKER <:+: im)
    (hres : resolveLang s.layoutData im = some lang) (hnot : lang ∉ s.layoutsList) :
    indexOf s.layoutsList lang = -1 ∧ applySystemLocaleLayout P s im = some (s, []) := by
  have hidx : indexOf s.layoutsList lang = -1 := (indexOf_eq_neg_one_iff _ _).mpr hnot
  refine ⟨hidx, ?_⟩
  rw [applySystemLocaleLayout_of_resolved P s im lang hres, hidx]
  exact setSelectedLayoutIndex_rejects P s (-1) (Or.inr (Or.inl (by decide)))

/-- An instance: the hint `lang=de` on the catalog `{fr_FR}` resolves to the absent `en_US`. -/
theorem applySystemLocaleLayout_unresolved_witness :
    LANG_MARKER <:+: HINT_DE ∧ resolveLang providerFr.layoutData HINT_DE = some EN_US ∧
    EN_US ∉ providerFr.layoutsList ∧
    indexOf providerFr.layoutsList EN_US = -1 ∧
    applySystemLocaleLayout resetAndWrap providerFr HINT_DE = some (providerFr, []) :=
  ⟨by decide, by decide, by decide,
    applySystemLocaleLayout_unresolved resetAndWrap providerFr HINT_DE EN_US (by decide)
      (by decide) (by decide)⟩

/-! ## Loading the catalog -/

namespace QMap

theorem value?_ensure_self : ∀ (m : QMap) (key : QString), ∃ v, value? (ensure m key) key = some v
  | [], key => ⟨LayoutData.empty, by simp [ensure, value?]⟩
  | (k, v) :: rest, key => by
    simp only [ensure]
    by_cases h1 : qstrLt k key = true
    · obtain ⟨w, hw⟩ := value?_ensure_self rest key
      exact ⟨w, by simp [h1, value?, qstrLt_ne h1, hw]⟩
    · by_cases h2 : qstrLt key k = true
      · exact ⟨LayoutData.empty, by simp [h1, h2, value?]⟩
      · have hk : k = key :=
          (qstrLt_total (Bool.eq_false_iff.mpr h2) (Bool.eq_false_iff.mpr h1)).symm
        exact ⟨v, by simp [hk, qstrLt_irrefl, value?]⟩

theorem value?_ensure_other : ∀ (m : QMap) (key other : QString), other ≠ key →
    value? (ensure m key) other = value? m other
  | [], key, other, h => by
    have hne : ¬ key = other := fun hh => h hh.symm
    simp [ensure, value?, hne]
  | (k, v) :: rest, key, other, h => by
    have hne : ¬ key = other := fun hh => h hh.symm
    simp only [ensure]
    by_cases h1 : qstrLt k key = true
    · simp [h1, value?, value?_ensure_other rest key other h]
    · by_cases h2 : qstrLt key k = true
      · simp [h1, h2, value?, hne]
      · simp [h1, h2]

theorem value?_modify_self : ∀ (m : QMap) (key : QString) (f : LayoutData → LayoutData)
    (v : LayoutData), value? m key = some v → value? (modify m key f) key = some (f v)
  | [], _, _, _, h => by simp [value?] at h
  | (k, w) :: rest, key, f, v, h => by
    by_cases hk : k = key
    · simp only [value?, hk, if_true, Option.some.injEq] at h
      simp [modify, value?, hk, h]
    · simp only [value?, hk, if_false] at h
      simp [modify, value?, hk, value?_modify_self rest key f v h]

theorem value?_modify_other : ∀ (m : QMap) (key other : QString) (f : LayoutData → LayoutData),
    other ≠ key → value? (modify m key f) other = value? m other
  | [], _, _, _, _ => by simp [modify]
  | (k, w) :: rest, key, other, f, h => by
    by_cases hk : k = key
    · have hne : ¬ key = other := fun hh => h hh.symm
      simp [modify, value?, hk, hne]
    · simp [modify, value?, hk, value?_modify_other rest key other f h]

theorem mem_keys_of_value? : ∀ (m : QMap) (key : QString) (v : LayoutData),
    value? m key = some v → key ∈ keys m
  | [], _, _, h => by simp [value?] at h
  | (k, w) :: rest, key, v, h => by
    rw [keys_cons, List.mem_cons]
    by_cases hk : k = key
    · exact Or.inl hk.symm
    · simp only [value?, hk, if_false] at h
      exact Or.inr (mem_keys_of_value? rest key v h)

theorem keys_modify : ∀ (m : QMap) (key : QString) (f : LayoutData → LayoutData),
    keys (modify m key f) = keys m
  | [], _, _ => rfl
  | (k, w) :: rest, key, f => by
    by_cases hk : k = key
    · simp [modify, hk, keys]
    · have := keys_modify rest key f
      simp only [keys] at this
      simp [modify, hk, keys, this]

end QMap

/-- The entry of `key` after the five assignments of the loading loop: each category is
the parsed content of its file, or empty when the file cannot be opened. -/
theorem value?_loadInto_self (R : Resources) (m : QMap) (key dir : QString) :
    (loadInto R m key dir).value? key = some
      { alphabet := (R.readFile (dir ++ ALPHABET_FILENAME)).elim [] R.parseArray
        symbols := (R.readFile (dir ++ SYMBOLS_FILENAME)).elim [] R.parseArray
        dial := (R.readFile (dir ++ DIAL_FILENAME)).elim [] R.parseArray
        numbers := (R.readFile (dir ++ NUMBERS_FILENAME)).elim [] R.parseArray
        digits := (R.readFile (dir ++ DIGITS_FILENAME)).elim [] R.parseArray } := by
  have hload : ∀ path, loadLayoutData R path = (R.readFile path).elim [] R.parseArray := by
    intro path
    unfold loadLayoutData
    cases R.readFile path <;> rfl
  obtain ⟨v, hv⟩ := QMap.value?_ensure_self m key
  unfold loadInto
  simp only
  rw [QMap.value?_modify_self _ key _ _
    (QMap.value?_modify_self _ key _ _
      (QMap.value?_modify_self _ key _ _
        (QMap.value?_modify_self _ key _ _
          (QMap.value?_modify_self _ key _ _ hv))))]
  simp only [hload]

theorem value?_loadInto_other (R : Resources) (m : QMap) (key dir other : QString)
    (h : other ≠ key) : (loadInto R m key dir).value? other = m.value? other := by
  unfold loadInto
  simp only
  rw [QMap.value?_modify_other _ key other _ h, QMap.value?_modify_other _ key other _ h,
    QMap.value?_modify_other _ key other _ h, QMap.value?_modify_other _ key other _ h,
    QMap.value?_modify_other _ key other _ h, QMap.value?_ensure_other _ key other h]

theorem keys_loadInto (R : Resources) (m : QMap) (key dir : QString) :
    (loadInto R m key dir).keys = (m.ensure key).keys := by
  unfold loadInto
  simp only [QMap.keys_modify]

theorem value?_loadLocales_other (R : Resources) : ∀ (dirs : List QString) (m : QMap)
    (other : QString), other ∉ dirs → (loadLocales R m dirs).value? other = m.value? other
  | [], _, _, _ => rfl
  | d :: rest, m, other, h => by
    have hd : other ≠ d := fun hh => h (hh ▸ List.mem_cons_self _ _)
    have hrest : other ∉ rest := fun hh => h (List.mem_cons_of_mem _ hh)
    simp only [loadLocales]
    rw [value?_loadLocales_other R rest _ other hrest, value?_loadInto_other R m d _ other hd]

theorem value?_loadLocales_mem (R : Resources) : ∀ (dirs : List QString) (m : QMap)
    (L : QString), L ∈ dirs →
    (loadLocales R m dirs).value? L = some
      { alphabet := (R.readFile (LAYOUTS_BASE ++ L ++ SLASH ++ ALPHABET_FILENAME)).elim [] R.parseArray
        symbols := (R.readFile (LAYOUTS_BASE ++ L ++ SLASH ++ SYMBOLS_FILENAME)).elim [] R.parseArray
        dial := (R.readFile (LAYOUTS_BASE ++ L ++ SLASH ++ DIAL_FILENAME)).elim [] R.parseArray
        numbers := (R.readFile (LAYOUTS_BASE ++ L ++ SLASH ++ NUMBERS_FILENAME)).elim [] R.parseArray
        digits := (R.readFile (LAYOUTS_BASE ++ L ++ SLASH ++ DIGITS_FILENAME)).elim [] R.parseArray }
  | [], _, _, h => by simp at h
  | d :: rest, m, L, h => by
    simp only [loadLocales]
    by_cases hrest : L ∈ rest
    · exact value?_loadLocales_mem R rest _ L hrest
    · have hd : L = d := by
        rcases List.mem_cons.mp h with h1 | h1
        · exact h1
        · exact absurd h1 hrest
      subst hd
      rw [value?_loadLocales_other R rest _ L hrest, value?_loadInto_self]

/-- Claim C8: when the base directory exists, for every locale directory `L` listed under it
the catalog after `loadEmbeddedLayouts` has an entry for `L` with all five categories, each
equal to the page array parsed from `:/ovk/qml/layouts/L/<category>.json` if that file can be
opened and to the empty array if it cannot; a file that cannot be opened empties its own
category only. -/
theorem loadEmbeddedLayouts_entry (R : Resources) (s : KeyboardLayoutsProvider) (L : QString)
    (hbase : R.baseExists = true) (hL : L ∈ R.localeDirs) :
    L ∈ (loadEmbeddedLayouts R s).layoutsList ∧
    (loadEmbeddedLayouts R s).layoutData.value? L = some
      { alphabet := (R.readFile (LAYOUTS_BASE ++ L ++ SLASH ++ ALPHABET_FILENAME)).elim [] R.parseArray
        symbols := (R.readFile (LAYOUTS_BASE ++ L ++ SLASH ++ SYMBOLS_FILENAME)).elim [] R.parseArray
        dial := (R.readFile (LAYOUTS_BASE ++ L ++ SLASH ++ DIAL_FILENAME)).elim [] R.parseArray
        numbers := (R.readFile (LAYOUTS_BASE ++ L ++ SLASH ++ NUMBERS_FILENAME)).elim [] R.parseArray
        digits := (R.readFile (LAYOUTS_BASE ++ L ++ SLASH ++ DIGITS_FILENAME)).elim [] R.parseArray } := by
  have hne : R.localeDirs.isEmpty = false := by
    cases hdirs : R.localeDirs with
    | nil => rw [hdirs] at hL; simp at hL
    | cons d rest => rfl
  have hval := value?_loadLocales_mem R R.localeDirs s.layoutData L hL
  have hdata : (loadEmbeddedLayouts R s).layoutData = loadLocales R s.layoutData R.localeDirs := by
    simp [loadEmbeddedLayouts, hbase, hne]
  rw [hdata]
  refine ⟨?_, hval⟩
  simp only [layoutsList, hdata]
  exact QMap.mem_keys_of_value? _ _ _ hval

/-- An instance, scenario B: `fr_FR` whose `symbols.json` cannot be opened. -/
theorem loadEmbeddedLayouts_entry_witness :
    resourcesFr.baseExists = true ∧ FR_FR ∈ resourcesFr.localeDirs ∧
    resourcesFr.readFile (LAYOUTS_BASE ++ FR_FR ++ SLASH ++ SYMBOLS_FILENAME) = none ∧
    (FR_FR ∈ (loadEmbeddedLayouts resourcesFr initial).layoutsList ∧
    (loadEmbeddedLayouts resourcesFr initial).layoutData.value? FR_FR = some
      { alphabet := (resourcesFr.readFile (LAYOUTS_BASE ++ FR_FR ++ SLASH ++ ALPHABET_FILENAME)).elim
          [] resourcesFr.parseArray
        symbols := (resourcesFr.readFile (LAYOUTS_BASE ++ FR_FR ++ SLASH ++ SYMBOLS_FILENAME)).elim
          [] resourcesFr.parseArray
        dial := (resourcesFr.readFile (LAYOUTS_BASE ++ FR_FR ++ SLASH ++ DIAL_FILENAME)).elim
          [] resourcesFr.parseArray
        numbers := (resourcesFr.readFile (LAYOUTS_BASE ++ FR_FR ++ SLASH ++ NUMBERS_FILENAME)).elim
          [] resourcesFr.parseArray
        digits := (resourcesFr.readFile (LAYOUTS_BASE ++ FR_FR ++ SLASH ++ DIGITS_FILENAME)).elim
          [] resourcesFr.parseArray }) :=
  ⟨rfl, by decide, by decide, loadEmbeddedLayouts_entry resourcesFr initial FR_FR rfl (by decide)⟩

/-! ## The catalog stays well formed -/

namespace QMap

theorem mem_keys_ensure : ∀ (m : QMap) (key x : QString), x ∈ keys (ensure m key) →
    x = key ∨ x ∈ keys m
  | [], key, x, h => by
    simp only [ensure, keys, List.map_cons, List.map_nil, List.mem_singleton] at h
    exact Or.inl h
  | (k, v) :: rest, key, x, h => by
    simp only [ensure] at h
    by_cases h1 : qstrLt k key = true
    · rw [if_pos h1] at h
      rw [keys_cons, List.mem_cons] at h
      cases h with
      | inl ha => exact Or.inr (by rw [keys_cons]; exact List.mem_cons.mpr (Or.inl ha))
      | inr hb =>
        rcases mem_keys_ensure rest key x hb with h3 | h3
        · exact Or.inl h3
        · exact Or.inr (by rw [keys_cons]; exact List.mem_cons_of_mem _ h3)
    · by_cases h2 : qstrLt key k = true
      · rw [if_neg h1, if_pos h2] at h
        rw [keys_cons, keys_cons, List.mem_cons, List.mem_cons] at h
        cases h with
        | inl ha => exact Or.inl ha
        | inr hb =>
          cases hb with
          | inl hb1 => exact Or.inr (by rw [keys_cons]; exact List.mem_cons.mpr (Or.inl hb1))
          | inr hb2 => exact Or.inr (by rw [keys_cons]; exact List.mem_cons_of_mem _ hb2)
      · rw [if_neg h1, if_neg h2] at h
        exact Or.inr h

theorem wf_cons {k : QString} {v : LayoutData} {m : QMap}
    (hlt : ∀ x ∈ keys m, qstrLt k x = true) (hwf : WF m) : WF ((k, v) :: m) := by
  unfold WF at hwf ⊢
  rw [keys_cons]
  exact List.pairwise_cons.mpr ⟨hlt, hwf⟩

theorem wf_ensure : ∀ (m : QMap) (key : QString), WF m → WF (ensure m key)
  | [], key, _ => by
    unfold WF
    simp [ensure, keys]
  | (k, v) :: rest, key, hwf => by
    simp only [ensure]
    by_cases h1 : qstrLt k key = true
    · rw [if_pos h1]
      refine wf_cons ?_ (wf_ensure rest key (wf_tail hwf))
      intro x hx
      rcases mem_keys_ensure rest key x hx with h3 | h3
      · rw [h3]
        exact h1
      · exact wf_head_lt hwf h3
    · by_cases h2 : qstrLt key k = true
      · rw [if_neg h1, if_pos h2]
        refine wf_cons ?_ hwf
        intro x hx
        rw [keys_cons, List.mem_cons] at hx
        rcases hx with h3 | h3
        · have hxk : x = k := h3
          rw [hxk]
          exact h2
        · exact qstrLt_trans h2 (wf_head_lt hwf h3)
      · rw [if_neg h1, if_neg h2]
        exact hwf

theorem wf_of_keys_eq {m1 m2 : QMap} (h : keys m1 = keys m2) (hwf : WF m2) : WF m1 := by
  unfold WF at hwf ⊢
  rw [h]
  exact hwf

end QMap

theorem wf_loadInto (R : Resources) (m : QMap) (key dir : QString) (hwf : m.WF) :
    (loadInto R m key dir).WF :=
  QMap.wf_of_keys_eq (keys_loadInto R m key dir) (QMap.wf_ensure m key hwf)

theorem wf_loadLocales (R : Resources) : ∀ (dirs : List QString) (m : QMap), m.WF →
    (loadLocales R m dirs).WF
  | [], _, h => h
  | d :: rest, m, h => wf_loadLocales R rest _ (wf_loadInto R m d _ h)

theorem wf_loadEmbeddedLayouts (R : Resources) (s : KeyboardLayoutsProvider)
    (hwf : s.layoutData.WF) : (loadEmbeddedLayouts R s).layoutData.WF := by
  unfold loadEmbeddedLayouts
  split_ifs
  · exact hwf
  · exact hwf
  · exact wf_loadLocales R _ _ hwf

theorem selectedLayoutIndex_loadEmbeddedLayouts (R : Resources) (s : KeyboardLayoutsProvider) :
    (loadEmbeddedLayouts R s).selectedLayoutIndex = s.selectedLayoutIndex := by
  unfold loadEmbeddedLayouts
  split_ifs <;> rfl

/-! ## The selection index -/

/-- On a well-formed catalog `setSelectedLayoutIndex` returns, keeps the catalog, and either
rejects the index and keeps the selected one, or sets it to an index in range. -/
theorem setSelectedLayoutIndex_step (P : PagePolicy) (s : KeyboardLayoutsProvider) (i : Int)
    (hwf : s.layoutData.WF) :
    ∃ s1 sigs, setSelectedLayoutIndex P s i = some (s1, sigs) ∧
      s1.layoutData = s.layoutData ∧
      ((s1.selectedLayoutIndex = s.selectedLayoutIndex ∧
          (s.selectedLayoutIndex = i ∨ i < 0 ∨ s.layoutsCount ≤ i)) ∨
        (s1.selectedLayoutIndex = i ∧ 0 ≤ i ∧ i < s.layoutsCount)) := by
  by_cases h : s.selectedLayoutIndex = i ∨ i < 0 ∨ s.layoutsCount ≤ i
  · exact ⟨s, [], setSelectedLayoutIndex_rejects P s i h, rfl, Or.inl ⟨rfl, h⟩⟩
  · have hsel : s.selectedLayoutIndex ≠ i := fun hh => h (Or.inl hh)
    have h0 : 0 ≤ i := by
      by_contra hh
      exact h (Or.inr (Or.inl (by omega)))
    have h1 : i < s.layoutsCount := by
      by_contra hh
      exact h (Or.inr (Or.inr (by omega)))
    have hlen : i.toNat < s.layoutData.length := by
      simp only [layoutsCount, QMap.size] at h1
      omega
    obtain ⟨⟨key, layout⟩, hget⟩ : ∃ e, s.layoutData.get? i.toNat = some e :=
      ⟨s.layoutData.get ⟨i.toNat, hlen⟩, List.get?_eq_get hlen⟩
    exact ⟨_, _, setSelectedLayoutIndex_accepts P s i key layout hwf hsel h0 hget, rfl,
      Or.inr ⟨rfl, h0, h1⟩⟩

theorem incrementPageForLayoutType_frame (P : PagePolicy) (s : KeyboardLayoutsProvider)
    (t : KeyboardLayoutType) :
    (incrementPageForLayoutType P s t).layoutData = s.layoutData ∧
    (incrementPageForLayoutType P s t).selectedLayoutIndex = s.selectedLayoutIndex := by
  cases t <;> exact ⟨rfl, rfl⟩

/-- Any sequence of calls on a well-formed catalog returns, keeps the catalog, and either
keeps the selected index or leaves an index in range. -/
theorem runCalls_step (P : PagePolicy) : ∀ (calls : List Call) (s : KeyboardLayoutsProvider),
    s.layoutData.WF →
    ∃ s1, runCalls P s calls = some s1 ∧ s1.layoutData = s.layoutData ∧
      (s1.selectedLayoutIndex = s.selectedLayoutIndex ∨
        (0 ≤ s1.selectedLayoutIndex ∧ s1.selectedLayoutIndex < s.layoutsCount))
  | [], s, _ => ⟨s, rfl, rfl, Or.inl rfl⟩
  | c :: cs, s, hwf => by
    obtain ⟨s1, hrun, hdata, hidx⟩ : ∃ s1, runCall P s c = some s1 ∧
        s1.layoutData = s.layoutData ∧
        (s1.selectedLayoutIndex = s.selectedLayoutIndex ∨
          (0 ≤ s1.selectedLayoutIndex ∧ s1.selectedLayoutIndex < s.layoutsCount)) := by
      cases c with
      | setSelectedLayoutIndex i =>
        obtain ⟨s1, sigs, hset, hd, hi⟩ := setSelectedLayoutIndex_step P s i hwf
        refine ⟨s1, by simp [runCall, hset], hd, ?_⟩
        rcases hi with ⟨hi, _⟩ | ⟨hi, h0, h1⟩
        · exact Or.inl hi
        · exact Or.inr (by rw [hi]; exact ⟨h0, h1⟩)
      | incrementPageForLayoutType t =>
        exact ⟨_, rfl, (incrementPageForLayoutType_frame P s t).1,
          Or.inl (incrementPageForLayoutType_frame P s t).2⟩
    have hwf1 : s1.layoutData.WF := by rw [hdata]; exact hwf
    obtain ⟨s2, hrun2, hdata2, hidx2⟩ := runCalls_step P cs s1 hwf1
    have hcount : s1.layoutsCount = s.layoutsCount := by simp [layoutsCount, hdata]
    refine ⟨s2, by simp [runCalls, hrun, hrun2], hdata2.trans hdata, ?_⟩
    rcases hidx2 with h2 | h2
    · rw [h2]
      exact hidx
    · rw [hcount] at h2
      exact Or.inr h2

theorem selectedLayout_of_valid (s : KeyboardLayoutsProvider) (h0 : 0 ≤ s.selectedLayoutIndex)
    (h1 : s.selectedLayoutIndex < s.layoutsCount) : ∃ k, s.selectedLayout = some k := by
  have hlen : s.selectedLayoutIndex.toNat < s.layoutsList.length := by
    simp only [layoutsCount, QMap.size] at h1
    simp only [layoutsList, QMap.keys_length]
    omega
  exact ⟨s.layoutsList.get ⟨_, hlen⟩, by simp [selectedLayout, h0, List.get?_eq_get hlen]⟩

/-- On a well-formed catalog with nothing selected and a hint with the marker,
`applySystemLocaleLayout` returns, keeps the catalog, and either selects the resolved
locale, or `en_US` is absent and nothing is selected. -/
theorem applySystemLocaleLayout_selection (P : PagePolicy) (c : KeyboardLayoutsProvider)
    (im : QString) (hwf : c.layoutData.WF) (hsel : c.selectedLayoutIndex = -1)
    (hm : LANG_MARKER <:+: im) :
    ∃ s0 sigs, applySystemLocaleLayout P c im = some (s0, sigs) ∧
      s0.layoutData = c.layoutData ∧
      ((0 ≤ s0.selectedLayoutIndex ∧ s0.selectedLayoutIndex < s0.layoutsCount) ∨
        (s0.selectedLayoutIndex = -1 ∧ EN_US ∉ s0.layoutsList)) := by
  obtain ⟨_, tag, _, _, _, _, _, htag⟩ := split_of_present LANG_MARKER im LANG_MARKER_ne_nil hm
  have hres := resolveLang_of_tag c.layoutData im tag htag
  generalize hlang : (if tag ∈ c.layoutData.keys then tag
      else if tag ++ FR_SUFFIX ∈ c.layoutData.keys then tag ++ FR_SUFFIX else EN_US) = lang
    at hres
  have hcall := applySystemLocaleLayout_of_resolved P c im lang hres
  obtain ⟨s0, sigs, hset, hdata, hidx⟩ :=
    setSelectedLayoutIndex_step P c (indexOf c.layoutsList lang) hwf
  have hcount : s0.layoutsCount = c.layoutsCount := by simp [layoutsCount, hdata]
  have hlist : s0.layoutsList = c.layoutsList := by simp [layoutsList, hdata]
  refine ⟨s0, sigs, ?_, hdata, ?_⟩
  · rw [hcall, hset]
  · by_cases hmem : lang ∈ c.layoutsList
    · left
      obtain ⟨h0, h1, _⟩ := indexOf_get?_of_mem c.layoutsList lang hmem
      have h1c : indexOf c.layoutsList lang < c.layoutsCount := by
        simp only [layoutsList, QMap.keys_length] at h1
        simpa [layoutsCount, QMap.size, layoutsList] using h1
      rcases hidx with ⟨_, hrej⟩ | ⟨hi, _, _⟩
      · rcases hrej with h | h | h
        · omega
        · omega
        · omega
      · rw [hi, hcount]
        exact ⟨h0, h1c⟩
    · right
      have hen : lang = EN_US := by
        rw [← hlang]
        by_cases h1 : tag ∈ c.layoutData.keys
        · rw [if_pos h1] at hlang
          exact absurd (hlang ▸ h1) hmem
        · rw [if_neg h1] at hlang ⊢
          by_cases h2 : tag ++ FR_SUFFIX ∈ c.layoutData.keys
          · rw [if_pos h2] at hlang
            exact absurd (hlang ▸ h2) hmem
          · rw [if_neg h2]
      rw [hen] at hmem
      have hneg : indexOf c.layoutsList lang = -1 := by
        rw [hen]
        exact (indexOf_eq_neg_one_iff _ _).mpr hmem
      rw [hlist]
      refine ⟨?_, hmem⟩
      rcases hidx with ⟨hi, _⟩ | ⟨_, h0, _⟩
      · rw [hi, hsel]
      · omega

/-- The constructor on a hint with the marker: it returns, the catalog is the loaded one, and
either the resolved locale was selected, or `en_US` is absent and nothing is selected. -/
theorem construct_selection (R : Resources) (P : PagePolicy) (im : QString)
    (hm : LANG_MARKER <:+: im) :
    ∃ s0 sigs, construct R P im = some (s0, sigs) ∧
      s0.layoutData = (loadEmbeddedLayouts R initial).layoutData ∧
      ((0 ≤ s0.selectedLayoutIndex ∧ s0.selectedLayoutIndex < s0.layoutsCount) ∨
        (s0.selectedLayoutIndex = -1 ∧ EN_US ∉ s0.layoutsList)) := by
  obtain ⟨s0, sigs, happ, hdata, hidx⟩ :=
    applySystemLocaleLayout_selection P (loadEmbeddedLayouts R initial) im
      (wf_loadEmbeddedLayouts R initial (by decide))
      (selectedLayoutIndex_loadEmbeddedLayouts R initial) hm
  refine ⟨s0, sigs ++ [Signal.layoutsCountChanged], ?_, hdata, hidx⟩
  unfold construct
  rw [happ]

/-- Claim C9, as the code has it: construct the provider on a hint containing `lang=`, then
apply any sequence of `setSelectedLayoutIndex` and `incrementPageForLayoutType` calls. Every
call returns, the catalog stays the loaded one, and in the state reached either
`0 <= selectedLayoutIndex() < layoutsCount()`, so that `selectedLayout()` is in range, or
the catalog has no `en_US` entry (an empty catalog included) and the selected index is still
the initial -1. -/
theorem selection_index_invariant (R : Resources) (P : PagePolicy) (im : QString)
    (calls : List Call) (hm : LANG_MARKER <:+: im) :
    ∃ s0 sigs s, construct R P im = some (s0, sigs) ∧ runCalls P s0 calls = some s ∧
      s.layoutData = (loadEmbeddedLayouts R initial).layoutData ∧
      ((0 ≤ s.selectedLayoutIndex ∧ s.selectedLayoutIndex < s.layoutsCount ∧
          ∃ k, s.selectedLayout = some k) ∨
        (s.selectedLayoutIndex = -1 ∧ EN_US ∉ s.layoutsList)) := by
  obtain ⟨s0, sigs, hcons, hdata0, hsel0⟩ := construct_selection R P im hm
  have hwf0 : s0.layoutData.WF := by
    rw [hdata0]
    exact wf_loadEmbeddedLayouts R initial (by decide)
  obtain ⟨s, hrun, hdata, hidx⟩ := runCalls_step P calls s0 hwf0
  have hcount : s.layoutsCount = s0.layoutsCount := by simp [layoutsCount, hdata]
  have hlist : s.layoutsList = s0.layoutsList := by simp [layoutsList, hdata]
  refine ⟨s0, sigs, s, hcons, hrun, hdata.trans hdata0, ?_⟩
  have hvalid : ∀ (_ : 0 ≤ s.selectedLayoutIndex)
      (_ : s.selectedLayoutIndex < s.layoutsCount),
      0 ≤ s.selectedLayoutIndex ∧ s.selectedLayoutIndex < s.layoutsCount ∧
        ∃ k, s.selectedLayout = some k :=
    fun h0 h1 => ⟨h0, h1, selectedLayout_of_valid s h0 h1⟩
  rcases hidx with hkeep | ⟨h0, h1⟩
  · rcases hsel0 with ⟨h0, h1⟩ | ⟨hneg, hen⟩
    · exact Or.inl (hvalid (by rw [hkeep]; exact h0) (by rw [hkeep, hcount]; exact h1))
    · exact Or.inr ⟨by rw [hkeep, hneg], by rw [hlist]; exact hen⟩
  · exact Or.inl (hvalid h0 (by rw [hcount]; exact h1))

/-- An instance: `fr_FR` alone, the hint `lang=fr`, then a page increment and a rejected selection. -/
theorem selection_index_invariant_witness :
    LANG_MARKER <:+: HINT_FR ∧
    ∃ s0 sigs s, construct resourcesFr resetAndWrap HINT_FR = some (s0, sigs) ∧
      runCalls resetAndWrap s0
        [Call.incrementPageForLayoutType KeyboardLayoutType.Alphabet,
         Call.setSelectedLayoutIndex 3] = some s ∧
      s.layoutData = (loadEmbeddedLayouts resourcesFr initial).layoutData ∧
      ((0 ≤ s.selectedLayoutIndex ∧ s.selectedLayoutIndex < s.layoutsCount ∧
          ∃ k, s.selectedLayout = some k) ∨
        (s.selectedLayoutIndex = -1 ∧ EN_US ∉ s.layoutsList)) :=
  ⟨by decide, selection_index_invariant resourcesFr resetAndWrap HINT_FR _ (by decide)⟩

/-- Claim C9 as stated fails: with the single locale directory `fr_FR` and the hint `lang=de`,
the constructor resolves to the absent `en_US` and selects nothing; the state reached (no
further call) has a non-empty catalog and the selected index -1, for which
`selectedLayout()` indexes out of range. -/
theorem construct_leaves_no_selection :
    ∃ s, construct resourcesFr resetAndWrap HINT_DE = some (s, [Signal.layoutsCountChanged]) ∧
      runCalls resetAndWrap s [] = some s ∧
      s.layoutsList = [FR_FR] ∧ s.layoutData ≠ [] ∧ s.selectedLayoutIndex = -1 ∧
      ¬ (0 ≤ s.selectedLayoutIndex ∧ s.selectedLayoutIndex < s.layoutsCount) ∧
      s.selectedLayout = none := by
  refine ⟨{ initial with layoutData := (loadEmbeddedLayouts resourcesFr initial).layoutData },
    ?_, rfl, ?_, ?_, rfl, ?_, rfl⟩
  · decide
  · decide
  · decide
  · decide

/-! ## The enumeration under `loadDefaultLayout` -/

theorem qstrLt_asymm {a b : QString} (h : qstrLt a b = true) : qstrLt b a = false := by
  rw [Bool.eq_false_iff]
  intro h2
  have := qstrLt_trans h h2
  rw [qstrLt_irrefl] at this
  exact Bool.false_ne_true this

theorem indexOf_cons_of_ne (y x : QString) (ys : List QString) (hne : y ≠ x)
    (h0 : 0 ≤ indexOf ys x) : indexOf (y :: ys) x = indexOf ys x + 1 := by
  have hr : ¬ indexOf ys x < 0 := by omega
  simp [indexOf, hne, hr]

namespace QMap

/-- The position of a key of a well-formed map after `operator[]( key )`: unchanged when
`key` is present or sorts after it, one more when `key` is inserted before it. -/
theorem indexOf_keys_ensure : ∀ (m : QMap) (key L : QString), WF m → L ∈ keys m →
    indexOf (keys (ensure m key)) L =
      if key ∈ keys m ∨ qstrLt L key = true then indexOf (keys m) L
      else indexOf (keys m) L + 1
  | [], _, _, _, hL => by simp [keys] at hL
  | (k, v) :: rest, key, L, hwf, hL => by
    by_cases hkm : key ∈ keys ((k, v) :: rest)
    · rw [ensure_of_mem _ key hwf hkm, if_pos (Or.inl hkm)]
    · have hkk : ¬ key = k := fun hh => hkm (by rw [keys_cons]; exact List.mem_cons.mpr (Or.inl hh))
      have hkrest : key ∉ keys rest := fun hh =>
        hkm (by rw [keys_cons]; exact List.mem_cons_of_mem _ hh)
      have h0 := (indexOf_get?_of_mem _ L hL).1
      rw [keys_cons, List.mem_cons] at hL
      simp only [ensure]
      by_cases h1 : qstrLt k key = true
      · rw [if_pos h1, keys_cons, keys_cons]
        by_cases hLk : k = L
        · subst hLk
          rw [if_pos (Or.inr h1)]
          simp [indexOf]
        · have hLrest : L ∈ keys rest := by
            rcases hL with hh | hh
            · exact absurd hh.symm hLk
            · exact hh
          have ih := indexOf_keys_ensure rest key L (wf_tail hwf) hLrest
          have hr0 := (indexOf_get?_of_mem _ L hLrest).1
          have hkeym : key ∈ keys rest ∨ qstrLt L key = true ↔
              key ∈ k :: keys rest ∨ qstrLt L key = true := by
            constructor
            · rintro (hh | hh)
              · exact absurd hh hkrest
              · exact Or.inr hh
            · rintro (hh | hh)
              · exact absurd (by rw [keys_cons]; exact hh) hkm
              · exact Or.inr hh
          have he0 : 0 ≤ indexOf (keys (ensure rest key)) L := by
            rw [ih]
            split_ifs <;> omega
          rw [indexOf_cons_of_ne k L _ hLk he0, indexOf_cons_of_ne k L _ hLk hr0, ih]
          by_cases hc : key ∈ keys rest ∨ qstrLt L key = true
          · rw [if_pos hc, if_pos (hkeym.mp hc)]
          · rw [if_neg hc, if_neg (fun hh => hc (hkeym.mpr hh))]
      · have h2 : qstrLt key k = true := by
          by_contra hh
          exact hkk (qstrLt_total (Bool.eq_false_iff.mpr hh) (Bool.eq_false_iff.mpr h1))
        rw [if_neg h1, if_pos h2]
        have hkL : qstrLt key L = true := by
          rcases hL with hh | hh
          · rw [hh]
            exact h2
          · exact qstrLt_trans h2 (wf_head_lt hwf hh)
        have hLkey : ¬ qstrLt L key = true := by
          rw [qstrLt_asymm hkL]
          exact Bool.false_ne_true
        have hcond : ¬ (key ∈ keys ((k, v) :: rest) ∨ qstrLt L key = true) := by
          rintro (hh | hh)
          · exact hkm hh
          · exact hLkey hh
        rw [if_neg hcond]
        exact indexOf_cons_of_ne key L _ (qstrLt_ne hkL) h0

/-- A key that sorts before `key` keeps its position under `operator[]( key )`. -/
theorem get?_keys_ensure_of_lt : ∀ (m : QMap) (key L : QString) (i : Nat), WF m →
    (keys m).get? i = some L → qstrLt L key = true → (keys (ensure m key)).get? i = some L
  | [], _, _, _, _, h, _ => by simp [keys] at h
  | (k, v) :: rest, key, L, 0, _, h, hlt => by
    have hk : k = L := by simpa [keys] using h
    subst hk
    simp only [ensure]
    rw [if_pos hlt]
    rfl
  | (k, v) :: rest, key, L, i + 1, hwf, h, hlt => by
    have hrest : (keys rest).get? i = some L := by simpa [keys] using h
    have hk : qstrLt k key = true :=
      qstrLt_trans (wf_head_lt hwf (List.get?_mem hrest)) hlt
    simp only [ensure]
    rw [if_pos hk, keys_cons, List.get?_cons_succ]
    exact get?_keys_ensure_of_lt rest key L i (wf_tail hwf) hrest hlt

end QMap

theorem layoutsList_loadDefaultLayout (R : Resources) (s : KeyboardLayoutsProvider) :
    (loadDefaultLayout R s).layoutsList = (s.layoutData.ensure EN_US).keys := by
  simp only [loadDefaultLayout, layoutsList]
  exact keys_loadInto R s.layoutData EN_US EN_US_BASE

/-- Claim C10, as the code has it: on a well-formed catalog, `loadDefaultLayout` leaves the
position in `layoutsList()` of a locale `L` already present unchanged when `en_US` is
already a key (it is overwritten) or `L` sorts before `en_US`, and moves it up by one when
`en_US` is inserted before `L`; hence `selectedLayout()` returns the same locale id after
`loadDefaultLayout` as before when `en_US` was already a key or the selected locale sorts
before `en_US`. -/
theorem loadDefaultLayout_positions (R : Resources) (s : KeyboardLayoutsProvider) (L : QString)
    (hwf : s.layoutData.WF) (hL : L ∈ s.layoutsList) :
    indexOf (loadDefaultLayout R s).layoutsList L =
      (if EN_US ∈ s.layoutsList ∨ qstrLt L EN_US = true then indexOf s.layoutsList L
       else indexOf s.layoutsList L + 1) ∧
    (∀ k, s.selectedLayout = some k → EN_US ∈ s.layoutsList ∨ qstrLt k EN_US = true →
      (loadDefaultLayout R s).selectedLayout = some k) := by
  constructor
  · rw [layoutsList_loadDefaultLayout]
    exact QMap.indexOf_keys_ensure s.layoutData EN_US L hwf hL
  · intro k hk hcond
    have hsel : (loadDefaultLayout R s).selectedLayoutIndex = s.selectedLayoutIndex := rfl
    unfold selectedLayout at hk ⊢
    rw [hsel, layoutsList_loadDefaultLayout]
    by_cases h0 : 0 ≤ s.selectedLayoutIndex
    · rw [if_pos h0] at hk ⊢
      rcases hcond with hmem | hlt
      · rw [QMap.ensure_of_mem _ EN_US hwf hmem]
        exact hk
      · exact QMap.get?_keys_ensure_of_lt _ EN_US k _ hwf hk hlt
    · rw [if_neg h0] at hk
      exact Option.noConfusion hk

/-- An instance: `de_DE` in the catalog `{de_DE, en_US}`. -/
theorem loadDefaultLayout_positions_witness :
    providerDeEn.layoutData.WF ∧ DE_DE ∈ providerDeEn.layoutsList ∧
    (indexOf (loadDefaultLayout resourcesFr providerDeEn).layoutsList DE_DE =
      (if EN_US ∈ providerDeEn.layoutsList ∨ qstrLt DE_DE EN_US = true
       then indexOf providerDeEn.layoutsList DE_DE
       else indexOf providerDeEn.layoutsList DE_DE + 1) ∧
    (∀ k, providerDeEn.selectedLayout = some k →
      EN_US ∈ providerDeEn.layoutsList ∨ qstrLt k EN_US = true →
      (loadDefaultLayout resourcesFr providerDeEn).selectedLayout = some k)) :=
  ⟨by decide, by decide,
    loadDefaultLayout_positions resourcesFr providerDeEn DE_DE (by decide) (by decide)⟩

/-- Claim C10 as stated fails: on the catalog `{fr_FR}` with `fr_FR` selected (index 0, in
range), `loadDefaultLayout` inserts `en_US` before `fr_FR`: the position of `fr_FR` goes from
0 to 1 and `selectedLayout()` returns `en_US` instead of `fr_FR`. -/
theorem loadDefaultLayout_shifts_fr_FR :
    providerFr.layoutData.WF ∧ FR_FR ∈ providerFr.layoutsList ∧
    (0 ≤ providerFr.selectedLayoutIndex ∧ providerFr.selectedLayoutIndex < providerFr.layoutsCount) ∧
    indexOf providerFr.layoutsList FR_FR = 0 ∧
    indexOf (loadDefaultLayout resourcesFr providerFr).layoutsList FR_FR = 1 ∧
    providerFr.selectedLayout = some FR_FR ∧
    (loadDefaultLayout resourcesFr providerFr).selectedLayout = some EN_US := by
  decide

end OVK
